import Mathlib

/-!
Verification of the trade-reconciliation and weighted-average-cost ledger
engine of the stocks repository (src/python/tfsa-llm).  Python Decimal
values are embedded as exact rationals; the two fixed output scales of the
code (6 fractional digits for quantities, 4 for prices) are applied by an
explicit half-up quantization function.  The batch engine of
apply_trades.py (trades reconciled against fills) and the fill-driven
engine of record_week.py are both embedded; each error path of the code
(die / raise, which aborts the run before anything is written) is an
Except.error value.
-/

namespace Stocks

/-- Python Decimal.quantize with ROUND_HALF_UP at a scale of s fractional
digits: round to the nearest multiple of 10 ^ (-s), ties away from zero.
This is the rounding mode used by every quantize call in the repository. -/
def quantize (s : ℕ) (x : ℚ) : ℚ :=
  if 0 ≤ x then (((x * 10 ^ s + 1 / 2).floor : ℤ) : ℚ) / 10 ^ s
  else -((((-x * 10 ^ s + 1 / 2).floor : ℤ) : ℚ) / 10 ^ s)

/-- round_shares of apply_trades.py (same as round_qty of record_week.py and
rounded_qty of ledger_tui.py): quantize to 6 fractional digits, half-up. -/
def round_shares (x : ℚ) : ℚ := quantize 6 x

/-- round_price of apply_trades.py (same in record_week.py, rounded_px in
ledger_tui.py): quantize to 4 fractional digits, half-up. -/
def round_price (x : ℚ) : ℚ := quantize 4 x

/-- One holdings row of the equity book: columns ticker, shares, avg_cost,
currency of holdings.csv, with the two Decimal columns as exact rationals. -/
structure EqRow where
  ticker : String
  shares : ℚ
  avg_cost : ℚ
  currency : String
deriving DecidableEq

/-- One trade intent of the trades JSON: action (buy or sell), ticker, qty. -/
structure Trade where
  action : String
  ticker : String
  qty : ℚ
deriving DecidableEq

/-- One executed fill of the fills CSV: action, ticker, qty, fill_price,
currency. -/
structure Fill where
  action : String
  ticker : String
  qty : ℚ
  fill_price : ℚ
  currency : String
deriving DecidableEq

/-- The error taxonomy of the engine: every die / raise of the reconciliation
and ledger code, with the numeric context the message carries. -/
inductive Err where
  | noFillsForTrade (action ticker : String)
  | quantityMismatch (total qty : ℚ) (ticker : String)
  | currencyMismatch (ticker : String)
  | noSuchPosition (ticker : String)
  | insufficientPosition (qty shares : ℚ) (ticker : String)
  | nonPositiveQuantity (ticker : String)
deriving DecidableEq

/-- The in-memory ledger: the dict hidx keyed by ticker, embedded as the
list of its rows in insertion order (Python dicts preserve it). -/
abbrev Ledger := List EqRow

/-- hidx.get(ticker): the first row whose ticker matches. -/
def findRow (h : Ledger) (tkr : String) : Option EqRow :=
  h.find? (fun r => decide (r.ticker = tkr))

/-- In-place mutation of the row object held under a key: every row whose
ticker matches is replaced, keeping its position in the dict order. -/
def updateRow (h : Ledger) (tkr : String) (nr : EqRow) : Ledger :=
  h.map (fun r => if r.ticker = tkr then nr else r)

/-- del hidx[ticker]: drop the row(s) with the given ticker. -/
def eraseRow (h : Ledger) (tkr : String) : Ledger :=
  h.filter (fun r => decide (r.ticker ≠ tkr))

/-- The fill group fidx[(action, ticker)]: fills are grouped by (action,
ticker) preserving input order, so the group is exactly the sublist of
fills matching the pair. -/
def fillsFor (fills : List Fill) (action tkr : String) : List Fill :=
  fills.filter (fun f => decide (f.action = action) && decide (f.ticker = tkr))

/-- The sell branch shared verbatim by apply_equity of apply_trades.py
(lines 147-157), record_week.py (lines 187-191) and ledger_tui.py: missing
row dies, oversell dies, otherwise shares become round_shares(shares - qty)
and a row whose rounded shares reach exactly 0 is deleted from the dict. -/
def sellStep (h : Ledger) (tkr : String) (qty : ℚ) : Except Err Ledger :=
  match findRow h tkr with
  | none => .error (.noSuchPosition tkr)
  | some row =>
    if row.shares < qty then .error (.insufficientPosition qty row.shares tkr)
    else
      if round_shares (row.shares - qty) = 0 then .ok (eraseRow h tkr)
      else .ok (updateRow h tkr { row with shares := round_shares (row.shares - qty) })

/-- The body of the per-trade loop of apply_equity in apply_trades.py
(lines 116-157): look up the whole fill group of (action, ticker); no
fills dies; an aggregated fill quantity different from the trade quantity
dies; otherwise the volume-weighted average fill price is computed and the
buy or sell is applied to the dict. -/
def applyTradeE (fills : List Fill) (h : Ledger) (t : Trade) : Except Err Ledger :=
  match fillsFor fills t.action t.ticker with
  | [] => .error (.noFillsForTrade t.action t.ticker)
  | f0 :: fs =>
    let total_qty : ℚ := ((f0 :: fs).map Fill.qty).sum
    if total_qty ≠ t.qty then .error (.quantityMismatch total_qty t.qty t.ticker)
    else
      let avg_fill_price : ℚ := ((f0 :: fs).map (fun f => f.qty * f.fill_price)).sum / t.qty
      if t.action = "buy" then
        match findRow h t.ticker with
        | some row =>
          if (f0 :: fs).any (fun f => decide (f.currency ≠ row.currency)) then
            .error (.currencyMismatch t.ticker)
          else
            let new_sh := row.shares + t.qty
            let new_cost := (row.shares * row.avg_cost + t.qty * avg_fill_price) / new_sh
            .ok (updateRow h t.ticker
              { row with shares := round_shares new_sh, avg_cost := round_price new_cost })
        | none =>
          .ok (h ++ [{ ticker := t.ticker, shares := round_shares t.qty,
                       avg_cost := round_price avg_fill_price, currency := f0.currency }])
      else
        sellStep h t.ticker t.qty

/-- The trade loop of apply_equity: trades are applied in input order; the
first die aborts the whole run (sys.exit before anything is written). -/
def applyTradesE (fills : List Fill) : Ledger → List Trade → Except Err Ledger
  | h, [] => .ok h
  | h, t :: ts =>
    match applyTradeE fills h t with
    | .error e => .error e
    | .ok h2 => applyTradesE fills h2 ts

/-- Code-point lexicographic comparison of character lists: the order used
by Python string comparison (and hence by sorted with a string key). -/
def strLeB : List Char → List Char → Bool
  | [], _ => true
  | _ :: _, [] => false
  | a :: as, b :: bs =>
    if a.toNat < b.toNat then true
    else if b.toNat < a.toNat then false
    else strLeB as bs

/-- Code-point lexicographic order on strings, as compared by Python. -/
def strLe (a b : String) : Bool := strLeB a.data b.data

/-- sorted(hidx.values(), key=lambda r: r["ticker"]) at the end of
apply_equity (apply_trades.py lines 159-160) and in write_holdings of
record_week.py (line 83). -/
def sortByTicker (rows : List EqRow) : List EqRow :=
  rows.mergeSort (fun a b => strLe a.ticker b.ticker)

/-- apply_equity of apply_trades.py (lines 108-160): run the trade loop on
the indexed holdings and return the rows sorted by ticker. -/
def applyEquity (holdings : Ledger) (trades : List Trade) (fills : List Fill) :
    Except Err Ledger :=
  match applyTradesE fills holdings trades with
  | .error e => .error e
  | .ok h2 => .ok (sortByTicker h2)

/-- The body of the per-fill loop of apply_equity in record_week.py
(lines 171-192): a non-positive fill quantity dies; a buy blends into the
existing row (after a currency check) or creates a new row; a sell goes
through the shared sell logic. -/
def applyFillRW (h : Ledger) (f : Fill) : Except Err Ledger :=
  if f.qty ≤ 0 then .error (.nonPositiveQuantity f.ticker)
  else if f.action = "buy" then
    match findRow h f.ticker with
    | some row =>
      if row.currency ≠ f.currency then .error (.currencyMismatch f.ticker)
      else
        let new_sh := row.shares + f.qty
        let new_cost := (row.shares * row.avg_cost + f.qty * f.fill_price) / new_sh
        .ok (updateRow h f.ticker
          { row with shares := round_shares new_sh, avg_cost := round_price new_cost })
    | none =>
      .ok (h ++ [{ ticker := f.ticker, shares := round_shares f.qty,
                   avg_cost := round_price f.fill_price, currency := f.currency }])
  else
    sellStep h f.ticker f.qty

/-- The fill loop of apply_equity in record_week.py: fills applied in input
order, the first die aborting the run before anything is written. -/
def applyEquityRW (h : Ledger) : List Fill → Except Err Ledger
  | [] => .ok h
  | f :: fs =>
    match applyFillRW h f with
    | .error e => .error e
    | .ok h2 => applyEquityRW h2 fs

/-- The textual form of one Decimal CSV cell.  Python str on a Decimal with
exponent -scale prints exactly the digits of the coefficient with the point
inserted scale places from the right, so for the fixed-scale cells of a
holdings snapshot the string is determined by (coefficient, scale) and
conversely; the cell is embedded as that pair. -/
structure DecCell where
  coeff : ℤ
  scale : ℕ
deriving DecidableEq

/-- str(v) on a Decimal cell holding the value x at exponent -s: the
coefficient is x * 10 ^ s (taken by floor, which is exact whenever x is a
multiple of 10 ^ (-s), i.e. for every value the code stores at scale s). -/
def cellOfDecimal (s : ℕ) (x : ℚ) : DecCell := ⟨(x * 10 ^ s).floor, s⟩

/-- Decimal(cell text): the exact rational value of the cell. -/
def decimalOfCell (c : DecCell) : ℚ := (c.coeff : ℚ) / 10 ^ c.scale

/-- One serialized CSV line of an equity holdings snapshot: columns ticker,
shares, avg_cost, currency (shares written at scale 6, avg_cost at 4). -/
structure CsvRow where
  ticker : String
  shares : DecCell
  avg_cost : DecCell
  currency : String
deriving DecidableEq

/-- One row written by write_holdings (apply_trades.py lines 220-224):
every value passed through str. -/
def writeRow (r : EqRow) : CsvRow :=
  { ticker := r.ticker, shares := cellOfDecimal 6 r.shares,
    avg_cost := cellOfDecimal 4 r.avg_cost, currency := r.currency }

/-- write_holdings of apply_trades.py (lines 207-224): the rows are written
in the order given (apply_equity already sorted them). -/
def writeHoldings (rows : List EqRow) : List CsvRow := rows.map writeRow

/-- Python str whitespace membership, for the ASCII whitespace characters
that can surround a CSV cell (space, tab, newline, carriage return,
vertical tab, form feed). -/
def isPySpace (c : Char) : Bool :=
  c == ' ' || c == '\t' || c == '\n' || c == '\r' || c == '\x0b' || c == '\x0c'

/-- Python str.strip on the character list of a string: drop leading and
trailing whitespace. -/
def pyStrip (cs : List Char) : List Char :=
  ((cs.dropWhile isPySpace).reverse.dropWhile isPySpace).reverse

/-- Python value.strip().upper() applied to a symbol or currency cell. -/
def stripUpper (s : String) : String :=
  String.mk ((pyStrip s.data).map Char.toUpper)

/-- One row read by load_holdings (apply_trades.py lines 89-96): ticker and
currency are stripped and uppercased, the numeric cells parsed by Decimal. -/
def loadRow (c : CsvRow) : EqRow :=
  { ticker := stripUpper c.ticker, shares := decimalOfCell c.shares,
    avg_cost := decimalOfCell c.avg_cost, currency := stripUpper c.currency }

/-- load_holdings of apply_trades.py (lines 79-103). -/
def loadHoldings (file : List CsvRow) : Ledger := file.map loadRow

/-- write_holdings of record_week.py (lines 74-88): rows sorted by their
key, every value passed through str. -/
def writeHoldingsRW (rows : List EqRow) : List CsvRow :=
  (sortByTicker rows).map writeRow

/-- The equity path of main in apply_trades.py (lines 226-245): load the
prior snapshot, apply the whole batch, and only on success write the new
snapshot; any die exits the process first, so on failure the persisted
file is still the prior snapshot. -/
def mainEquity (prev : List CsvRow) (trades : List Trade) (fills : List Fill) :
    List CsvRow :=
  match applyEquity (loadHoldings prev) trades fills with
  | .ok updated => writeHoldings updated
  | .error _ => prev

/-- The weighted-average blend of the buy branch with the quantize calls
omitted: state (quantity, average cost) and one buy (quantity, price) give
(q0 + q, (q0 * avg0 + q * p) / (q0 + q)) exactly.  This is the arithmetic
of apply_equity before rounding, used to state the order-invariance that
the spec attributes to it. -/
def blendExact (s : ℚ × ℚ) (bp : ℚ × ℚ) : ℚ × ℚ :=
  (s.1 + bp.1, (s.1 * s.2 + bp.1 * bp.2) / (s.1 + bp.1))

/-- A rational lies on the fixed grid of scale s: it is an integer multiple
of 10 ^ (-s).  Quantities of the ledger live at scale 6, prices at 4. -/
def atScale (s : ℕ) (x : ℚ) : Prop := ∃ n : ℤ, x = (n : ℚ) / 10 ^ s

theorem ratFloor_eq_floor (q : ℚ) : (q.floor : ℤ) = ⌊q⌋ :=
  (Rat.floor_def' q).trans Rat.floor_def.symm

theorem floor_half : ⌊(1 / 2 : ℚ)⌋ = 0 := by
  rw [Int.floor_eq_zero_iff]
  constructor <;> norm_num

theorem atScale_sub {s : ℕ} {x y : ℚ} (hx : atScale s x) (hy : atScale s y) :
    atScale s (x - y) := by
  obtain ⟨n, rfl⟩ := hx
  obtain ⟨m, rfl⟩ := hy
  exact ⟨n - m, by push_cast; ring⟩

/-- Quantization is the identity on values already on its grid: rounding a
value stored at scale s changes nothing. -/
theorem quantize_atScale {s : ℕ} {x : ℚ} (hx : atScale s x) : quantize s x = x := by
  obtain ⟨n, rfl⟩ := hx
  have key : ∀ m : ℤ, (((m : ℚ) / 10 ^ s * 10 ^ s + 1 / 2).floor : ℤ) = m := by
    intro m
    have h1 : (m : ℚ) / 10 ^ s * 10 ^ s + 1 / 2 = (m : ℚ) + 1 / 2 := by
      have hp : (10 : ℚ) ^ s ≠ 0 := by positivity
      field_simp
    rw [h1, ratFloor_eq_floor, Int.floor_int_add, floor_half, add_zero]
  unfold quantize
  by_cases hpos : 0 ≤ (n : ℚ) / 10 ^ s
  · rw [if_pos hpos, key]
  · rw [if_neg hpos]
    have h2 : -((n : ℚ) / 10 ^ s) = ((-n : ℤ) : ℚ) / 10 ^ s := by push_cast; ring
    rw [h2, key]
    push_cast
    ring

theorem findRow_ticker {h : Ledger} {tkr : String} {row : EqRow}
    (hf : findRow h tkr = some row) : row.ticker = tkr := by
  unfold findRow at hf
  have := List.find?_some hf
  simpa using this

theorem findRow_updateRow {h : Ledger} {tkr : String} {row nr : EqRow}
    (hf : findRow h tkr = some row) (hnr : nr.ticker = tkr) :
    findRow (updateRow h tkr nr) tkr = some nr := by
  induction h with
  | nil => simp [findRow] at hf
  | cons r rs ih =>
    by_cases hb : r.ticker = tkr
    · simp [findRow, updateRow, List.find?_cons, hb, hnr]
    · have hf2 : findRow rs tkr = some row := by
        unfold findRow at hf ⊢
        rw [List.find?_cons] at hf
        simpa [hb] using hf
      have hrec := ih hf2
      unfold findRow updateRow at hrec ⊢
      simp only [List.map_cons, List.find?_cons]
      simpa [hb] using hrec

theorem findRow_eraseRow (h : Ledger) (tkr : String) :
    findRow (eraseRow h tkr) tkr = none := by
  unfold findRow eraseRow
  rw [List.find?_eq_none]
  intro x hx
  simp only [List.mem_filter] at hx
  simpa using hx.2

theorem char_eq_of_toNat_eq {a b : Char} (hab : a.toNat = b.toNat) : a = b :=
  Char.ext (UInt32.ext hab)

theorem strLeB_total : ∀ as bs, strLeB as bs = true ∨ strLeB bs as = true
  | [], _ => Or.inl rfl
  | _ :: _, [] => Or.inr rfl
  | a :: as, b :: bs => by
    rcases Nat.lt_trichotomy a.toNat b.toNat with hlt | heq | hgt
    · left; simp [strLeB, hlt]
    · have h1 : ¬ a.toNat < b.toNat := by omega
      have h2 : ¬ b.toNat < a.toNat := by omega
      rcases strLeB_total as bs with ih | ih
      · left; simp [strLeB, h1, h2, ih]
      · right; simp [strLeB, h1, h2, heq, ih]
    · right; simp [strLeB, hgt]

theorem strLeB_trans : ∀ as bs cs, strLeB as bs = true → strLeB bs cs = true →
    strLeB as cs = true
  | [], _, _ => by intro _ _; rfl
  | a :: as, [], _ => by intro hab _; simp [strLeB] at hab
  | a :: as, b :: bs, [] => by intro _ hbc; simp [strLeB] at hbc
  | a :: as, b :: bs, c :: cs => by
    intro hab hbc
    rcases Nat.lt_trichotomy a.toNat b.toNat with hab1 | hab1 | hab1
    · rcases Nat.lt_trichotomy b.toNat c.toNat with hbc1 | hbc1 | hbc1
      · have : a.toNat < c.toNat := by omega
        simp [strLeB, this]
      · have : a.toNat < c.toNat := by omega
        simp [strLeB, this]
      · simp [strLeB, Nat.lt_asymm hbc1, hbc1] at hbc
    · rcases Nat.lt_trichotomy b.toNat c.toNat with hbc1 | hbc1 | hbc1
      · have : a.toNat < c.toNat := by omega
        simp [strLeB, this]
      · have h1 : ¬ a.toNat < c.toNat := by omega
        have h2 : ¬ c.toNat < a.toNat := by omega
        simp only [strLeB, if_neg h1, if_neg h2]
        simp only [strLeB, if_neg (by omega : ¬ a.toNat < b.toNat),
          if_neg (by omega : ¬ b.toNat < a.toNat)] at hab
        simp only [strLeB, if_neg (by omega : ¬ b.toNat < c.toNat),
          if_neg (by omega : ¬ c.toNat < b.toNat)] at hbc
        exact strLeB_trans as bs cs hab hbc
      · simp [strLeB, Nat.lt_asymm hbc1, hbc1] at hbc
    · simp [strLeB, Nat.lt_asymm hab1, hab1] at hab

theorem strLeB_antisymm : ∀ as bs, strLeB as bs = true → strLeB bs as = true →
    as = bs
  | [], [] => by intro _ _; rfl
  | [], _ :: _ => by intro _ hba; simp [strLeB] at hba
  | _ :: _, [] => by intro hab _; simp [strLeB] at hab
  | a :: as, b :: bs => by
    intro hab hba
    rcases Nat.lt_trichotomy a.toNat b.toNat with h1 | h1 | h1
    · simp [strLeB, Nat.lt_asymm h1, h1] at hba
    · have h2 : ¬ a.toNat < b.toNat := by omega
      have h3 : ¬ b.toNat < a.toNat := by omega
      simp only [strLeB, if_neg h2, if_neg h3] at hab
      simp only [strLeB, if_neg h3, if_neg h2] at hba
      rw [char_eq_of_toNat_eq h1, strLeB_antisymm as bs hab hba]
    · simp [strLeB, Nat.lt_asymm h1, h1] at hab

theorem strLe_total (a b : String) : strLe a b = true ∨ strLe b a = true :=
  strLeB_total a.data b.data

theorem strLe_trans {a b c : String} (hab : strLe a b = true)
    (hbc : strLe b c = true) : strLe a c = true :=
  strLeB_trans a.data b.data c.data hab hbc

theorem strLe_antisymm {a b : String} (hab : strLe a b = true)
    (hba : strLe b a = true) : a = b :=
  String.ext (strLeB_antisymm a.data b.data hab hba)

theorem sortByTicker_perm (rows : List EqRow) : (sortByTicker rows).Perm rows :=
  List.mergeSort_perm rows _

theorem sortByTicker_sorted (rows : List EqRow) :
    (sortByTicker rows).Pairwise (fun a b => strLe a.ticker b.ticker = true) := by
  apply List.sorted_mergeSort
  · intro a b c hab hbc
    exact strLe_trans hab hbc
  · intro a b
    rcases strLe_total a.ticker b.ticker with hle | hle <;> simp [hle]

theorem sortByTicker_eq_of_perm {rows1 rows2 : List EqRow}
    (hperm : rows1.Perm rows2) (hnd : (rows1.map EqRow.ticker).Nodup) :
    sortByTicker rows1 = sortByTicker rows2 := by
  have hperm12 : (sortByTicker rows1).Perm (sortByTicker rows2) :=
    (sortByTicker_perm rows1).trans (hperm.trans (sortByTicker_perm rows2).symm)
  have hstrict : ∀ rows : List EqRow, (rows.map EqRow.ticker).Nodup →
      (sortByTicker rows).Pairwise
        (fun a b => strLe a.ticker b.ticker = true ∧ a.ticker ≠ b.ticker) := by
    intro rows hnodup
    have hsortednd : ((sortByTicker rows).map EqRow.ticker).Nodup :=
      (((sortByTicker_perm rows).map EqRow.ticker).nodup_iff).mpr hnodup
    have hne : (sortByTicker rows).Pairwise (fun a b => a.ticker ≠ b.ticker) :=
      List.pairwise_map.mp hsortednd
    exact (sortByTicker_sorted rows).and hne
  have hnd2 : (rows2.map EqRow.ticker).Nodup :=
    ((hperm.map EqRow.ticker).nodup_iff).mp hnd
  haveI : IsAntisymm EqRow
      (fun a b => strLe a.ticker b.ticker = true ∧ a.ticker ≠ b.ticker) := by
    constructor
    intro a b hab hba
    exact absurd (strLe_antisymm hab.1 hba.1) hab.2
  exact List.eq_of_perm_of_sorted hperm12 (hstrict rows1 hnd) (hstrict rows2 hnd2)

/-- Closed form of the unrounded blend: folding buys over a held position
gives total quantity and total cost over total quantity. -/
theorem foldl_blendExact (l : List (ℚ × ℚ)) : ∀ (q0 a0 : ℚ), 0 < q0 →
    (∀ x ∈ l, 0 < x.1) →
    l.foldl blendExact (q0, a0) =
      (q0 + (l.map Prod.fst).sum,
       (q0 * a0 + (l.map (fun x => x.1 * x.2)).sum) / (q0 + (l.map Prod.fst).sum)) := by
  induction l with
  | nil =>
    intro q0 a0 hq0 _
    simp [mul_div_cancel_left₀ a0 hq0.ne']
  | cons x t ih =>
    intro q0 a0 hq0 hpos
    have hx : 0 < x.1 := hpos x (List.mem_cons_self x t)
    have hq0x : 0 < q0 + x.1 := by linarith
    have hrw : blendExact (q0, a0) x = (q0 + x.1, (q0 * a0 + x.1 * x.2) / (q0 + x.1)) := rfl
    rw [List.foldl_cons, hrw, ih (q0 + x.1) _ hq0x (fun y hy => hpos y (List.mem_cons_of_mem x hy))]
    have hcancel : (q0 + x.1) * ((q0 * a0 + x.1 * x.2) / (q0 + x.1)) =
        q0 * a0 + x.1 * x.2 := mul_div_cancel₀ _ hq0x.ne'
    rw [hcancel]
    simp only [List.map_cons, List.sum_cons]
    rw [Prod.mk.injEq]
    constructor
    · ring
    · congr 1 <;> ring

/-- C1: for every held equity position (quantity q0 > 0, average cost avg0)
and every buy of quantity q > 0 whose fills (all in the position's
currency) aggregate to q at effective unit price p, the updated position
has quantity round_shares (q0 + q) and average cost
round_price ((q0 * avg0 + q * p) / (q0 + q)), the half-up quantization
applied only after the exact arithmetic. -/
theorem C1_buy_weighted_average
    (fills : List Fill) (h : Ledger) (t : Trade) (row : EqRow)
    (f0 : Fill) (fs : List Fill)
    (hact : t.action = "buy")
    (hrow : findRow h t.ticker = some row)
    (hq0 : 0 < row.shares) (hq : 0 < t.qty)
    (hfills : fillsFor fills t.action t.ticker = f0 :: fs)
    (hsum : ((f0 :: fs).map Fill.qty).sum = t.qty)
    (hcur : ∀ f ∈ f0 :: fs, f.currency = row.currency) :
    ∃ h2, applyTradeE fills h t = .ok h2 ∧
      findRow h2 t.ticker = some
        { ticker := row.ticker,
          shares := round_shares (row.shares + t.qty),
          avg_cost := round_price ((row.shares * row.avg_cost +
            t.qty * (((f0 :: fs).map (fun f => f.qty * f.fill_price)).sum / t.qty)) /
            (row.shares + t.qty)),
          currency := row.currency } := by
  have htk : row.ticker = t.ticker := findRow_ticker hrow
  have hfills2 : fillsFor fills "buy" t.ticker = f0 :: fs := hact ▸ hfills
  have hsum2 : f0.qty + (fs.map Fill.qty).sum = t.qty := by simpa using hsum
  have hcur0 : f0.currency = row.currency := hcur f0 (List.mem_cons_self f0 fs)
  have hcurs : ∀ x ∈ fs, x.currency = row.currency :=
    fun x hx => hcur x (List.mem_cons_of_mem f0 hx)
  have happ : applyTradeE fills h t = .ok (updateRow h t.ticker
      { row with
        shares := round_shares (row.shares + t.qty)
        avg_cost := round_price ((row.shares * row.avg_cost +
          t.qty * (((f0 :: fs).map (fun f => f.qty * f.fill_price)).sum / t.qty)) /
          (row.shares + t.qty)) }) := by
    simp only [applyTradeE]
    rw [hact, hfills2]
    simp [hsum2, hcur0, hcurs, hrow]
    exact hcurs
  exact ⟨_, happ, findRow_updateRow hrow htk⟩

/-- C1 witness: the concrete scenario of the spec: held 10 at 100, buy 5
filled at 110, giving quantity 15.000000 and average cost 103.3333. -/
theorem C1_buy_weighted_average_witness :
    ∃ h2, applyTradeE [⟨"buy", "AAA", 5, 110, "USD"⟩]
        [⟨"AAA", 10, 100, "USD"⟩] ⟨"buy", "AAA", 5⟩ = .ok h2 ∧
      findRow h2 "AAA" = some ⟨"AAA", 15, 1033333 / 10000, "USD"⟩ := by
  obtain ⟨h2, he, hf⟩ := C1_buy_weighted_average
    [⟨"buy", "AAA", 5, 110, "USD"⟩] [⟨"AAA", 10, 100, "USD"⟩]
    ⟨"buy", "AAA", 5⟩ ⟨"AAA", 10, 100, "USD"⟩ ⟨"buy", "AAA", 5, 110, "USD"⟩ []
    rfl rfl (by decide) (by decide) rfl (by simp) (by simp)
  refine ⟨h2, he, ?_⟩
  rw [hf]
  norm_num [round_shares, round_price, quantize, Rat.floor_def']

/-- C2: batch application is all-or-nothing: whenever any trade of the
batch fails (any error of the taxonomy), main dies before write_holdings,
so the persisted snapshot is exactly the pre-batch snapshot. -/
theorem C2_atomicity (prev : List CsvRow) (trades : List Trade) (fills : List Fill)
    (e : Err) (hfail : applyEquity (loadHoldings prev) trades fills = .error e) :
    mainEquity prev trades fills = prev := by
  unfold mainEquity
  rw [hfail]

/-- C2 witness: a two-trade batch whose first trade (buy AAA 5) succeeds
and whose second (sell AAA 20 against 15 held) fails with
InsufficientPosition leaves the persisted snapshot equal to its pre-batch
state. -/
theorem C2_atomicity_witness :
    applyEquity (loadHoldings [⟨"AAA", ⟨10000000, 6⟩, ⟨1000000, 4⟩, "USD"⟩])
        [⟨"buy", "AAA", 5⟩, ⟨"sell", "AAA", 20⟩]
        [⟨"buy", "AAA", 5, 110, "USD"⟩, ⟨"sell", "AAA", 20, 120, "USD"⟩]
      = .error (.insufficientPosition 20 15 "AAA") ∧
    mainEquity [⟨"AAA", ⟨10000000, 6⟩, ⟨1000000, 4⟩, "USD"⟩]
        [⟨"buy", "AAA", 5⟩, ⟨"sell", "AAA", 20⟩]
        [⟨"buy", "AAA", 5, 110, "USD"⟩, ⟨"sell", "AAA", 20, 120, "USD"⟩]
      = [⟨"AAA", ⟨10000000, 6⟩, ⟨1000000, 4⟩, "USD"⟩] := by
  have hload : loadHoldings [⟨"AAA", ⟨10000000, 6⟩, ⟨1000000, 4⟩, "USD"⟩]
      = [⟨"AAA", (10000000 : ℚ) / 10 ^ 6, (1000000 : ℚ) / 10 ^ 4, "USD"⟩] := rfl
  have hload2 : loadHoldings [⟨"AAA", ⟨10000000, 6⟩, ⟨1000000, 4⟩, "USD"⟩]
      = [⟨"AAA", 10, 100, "USD"⟩] := by
    rw [hload]
    norm_num
  have hf1 : fillsFor [⟨"buy", "AAA", 5, 110, "USD"⟩, ⟨"sell", "AAA", 20, 120, "USD"⟩]
      "buy" "AAA" = [⟨"buy", "AAA", 5, 110, "USD"⟩] := rfl
  have hf2 : fillsFor [⟨"buy", "AAA", 5, 110, "USD"⟩, ⟨"sell", "AAA", 20, 120, "USD"⟩]
      "sell" "AAA" = [⟨"sell", "AAA", 20, 120, "USD"⟩] := rfl
  have h1 : applyTradeE [⟨"buy", "AAA", 5, 110, "USD"⟩, ⟨"sell", "AAA", 20, 120, "USD"⟩]
      [⟨"AAA", 10, 100, "USD"⟩] ⟨"buy", "AAA", 5⟩
      = .ok [⟨"AAA", 15, 1033333 / 10000, "USD"⟩] := by
    norm_num [applyTradeE, hf1, findRow, updateRow, round_shares, round_price,
      quantize, Rat.floor_def']
  have h2 : applyTradeE [⟨"buy", "AAA", 5, 110, "USD"⟩, ⟨"sell", "AAA", 20, 120, "USD"⟩]
      [⟨"AAA", 15, 1033333 / 10000, "USD"⟩] ⟨"sell", "AAA", 20⟩
      = .error (.insufficientPosition 20 (15 : ℚ) "AAA") := by
    norm_num [applyTradeE, hf2, findRow, sellStep]
    intro hcontra
    simp at hcontra
  have hfail : applyEquity (loadHoldings [⟨"AAA", ⟨10000000, 6⟩, ⟨1000000, 4⟩, "USD"⟩])
      [⟨"buy", "AAA", 5⟩, ⟨"sell", "AAA", 20⟩]
      [⟨"buy", "AAA", 5, 110, "USD"⟩, ⟨"sell", "AAA", 20, 120, "USD"⟩]
      = .error (.insufficientPosition 20 15 "AAA") := by
    rw [hload2]
    simp [applyEquity, applyTradesE, h1, h2]
  exact ⟨hfail, C2_atomicity _ _ _ _ hfail⟩

/-- C3: selling q of a held position (quantity q0 > 0, both quantities on
the scale-6 grid): when q < q0 the position keeps its average cost
unchanged and its quantity becomes q0 - q (which the scale-6 quantization
leaves untouched); when q = q0 the row is removed entirely and a
subsequent sell of the instrument fails with NoSuchPosition. -/
theorem C3_sell_preserves_cost_and_liquidates
    (h : Ledger) (tkr : String) (q : ℚ) (row : EqRow)
    (hrow : findRow h tkr = some row)
    (hq0 : 0 < row.shares)
    (hsc0 : atScale 6 row.shares) (hscq : atScale 6 q) :
    (q < row.shares →
      sellStep h tkr q = .ok (updateRow h tkr { row with shares := row.shares - q }) ∧
      findRow (updateRow h tkr { row with shares := row.shares - q }) tkr =
        some { row with shares := row.shares - q }) ∧
    (q = row.shares →
      sellStep h tkr q = .ok (eraseRow h tkr) ∧
      findRow (eraseRow h tkr) tkr = none ∧
      ∀ q2, sellStep (eraseRow h tkr) tkr q2 = .error (.noSuchPosition tkr)) := by
  have htk : row.ticker = tkr := findRow_ticker hrow
  constructor
  · intro hlt
    have hnotlt : ¬ row.shares < q := by linarith
    have hround : round_shares (row.shares - q) = row.shares - q :=
      quantize_atScale (atScale_sub hsc0 hscq)
    have hne : row.shares - q ≠ 0 := by
      have : 0 < row.shares - q := by linarith
      linarith
    constructor
    · simp only [sellStep, hrow, if_neg hnotlt, hround]
      simp [hne]
    · exact findRow_updateRow hrow htk
  · intro heq
    have hnotlt : ¬ row.shares < q := by simp [heq]
    have hround : round_shares (row.shares - q) = 0 := by
      rw [heq, sub_self]
      exact quantize_atScale ⟨0, by norm_num⟩
    refine ⟨?_, findRow_eraseRow h tkr, ?_⟩
    · simp only [sellStep, hrow, if_neg hnotlt, hround]
      simp
    · intro q2
      simp [sellStep, findRow_eraseRow h tkr]

/-- C3 witness: from a held position of 10 at cost 100, a sell of 4 leaves
6.000000 at the unchanged cost 100, and a sell of 10 removes the row, after
which another sell fails with NoSuchPosition. -/
theorem C3_sell_witness :
    (sellStep [⟨"AAA", 10, 100, "USD"⟩] "AAA" 4
        = .ok [⟨"AAA", 6, 100, "USD"⟩]) ∧
    (sellStep [⟨"AAA", 10, 100, "USD"⟩] "AAA" 10 = .ok []) ∧
    (∀ q2, sellStep [] "AAA" q2 = .error (.noSuchPosition "AAA")) := by
  obtain ⟨hpart, hfull⟩ := C3_sell_preserves_cost_and_liquidates
    [⟨"AAA", 10, 100, "USD"⟩] "AAA" 4 ⟨"AAA", 10, 100, "USD"⟩
    rfl (by decide) ⟨10000000, by norm_num⟩ ⟨4000000, by norm_num⟩
  obtain ⟨hpart2, hfull2⟩ := C3_sell_preserves_cost_and_liquidates
    [⟨"AAA", 10, 100, "USD"⟩] "AAA" 10 ⟨"AAA", 10, 100, "USD"⟩
    rfl (by decide) ⟨10000000, by norm_num⟩ ⟨10000000, by norm_num⟩
  obtain ⟨hsell, _⟩ := hpart (by decide)
  obtain ⟨hsell10, _, hafter⟩ := hfull2 (by decide)
  refine ⟨?_, ?_, ?_⟩
  · rw [hsell]
    norm_num [updateRow]
  · rw [hsell10]
    norm_num [eraseRow]
  · intro q2
    have := hafter q2
    simpa [eraseRow] using this

/-- C4: for a trade with at least one matching fill, the engine fails with
QuantityMismatch exactly when the exact decimal sum of the matching fills
differs from the trade quantity; and any failing single-trade batch leaves
the persisted snapshot unchanged. -/
theorem C4_quantity_mismatch_iff (fills : List Fill) (h : Ledger) (t : Trade)
    (f0 : Fill) (fs : List Fill)
    (hfills : fillsFor fills t.action t.ticker = f0 :: fs) :
    (applyTradeE fills h t =
        .error (.quantityMismatch (((f0 :: fs).map Fill.qty).sum) t.qty t.ticker)
      ↔ ((f0 :: fs).map Fill.qty).sum ≠ t.qty) ∧
    (∀ prev e, applyEquity (loadHoldings prev) [t] fills = .error e →
      mainEquity prev [t] fills = prev) := by
  constructor
  · constructor
    · intro hres hc
      simp only [applyTradeE] at hres
      rw [hfills] at hres
      simp only [List.map_cons, List.sum_cons] at hres hc
      rw [if_neg (by simpa using hc)] at hres
      split at hres
      · split at hres
        · split at hres <;> simp_all
        · simp_all
      · unfold sellStep at hres
        split at hres
        · simp_all
        · split at hres
          · simp_all
          · split at hres <;> simp_all
    · intro hne
      simp only [applyTradeE]
      rw [hfills]
      simp only [List.map_cons, List.sum_cons] at hne ⊢
      rw [if_pos (by simpa using hne)]
  · intro prev e hf
    unfold mainEquity
    rw [hf]

/-- C4 witness: trade quantity 10 against a fill of 9.999999 fails with
QuantityMismatch. -/
theorem C4_quantity_mismatch_witness :
    applyTradeE [⟨"buy", "AAA", 9999999 / 1000000, 100, "USD"⟩] []
        ⟨"buy", "AAA", 10⟩
      = .error (.quantityMismatch (9999999 / 1000000) 10 "AAA") := by
  obtain ⟨hiff, _⟩ := C4_quantity_mismatch_iff
    [⟨"buy", "AAA", 9999999 / 1000000, 100, "USD"⟩] [] ⟨"buy", "AAA", 10⟩
    ⟨"buy", "AAA", 9999999 / 1000000, 100, "USD"⟩ [] rfl
  have hres := hiff.mpr (by norm_num)
  simpa using hres

/-- Parsing the printed form of a Decimal cell recovers its value exactly,
for any value on the grid of the cell's scale. -/
theorem cell_round_trip {s : ℕ} {x : ℚ} (hx : atScale s x) :
    decimalOfCell (cellOfDecimal s x) = x := by
  obtain ⟨n, rfl⟩ := hx
  unfold cellOfDecimal decimalOfCell
  have hxm : (n : ℚ) / 10 ^ s * 10 ^ s = (n : ℚ) := by
    have hp : (10 : ℚ) ^ s ≠ 0 := by positivity
    field_simp
  rw [hxm]
  have hfl : ((n : ℚ).floor : ℤ) = n := by
    rw [ratFloor_eq_floor]
    exact_mod_cast Int.floor_intCast n
  rw [hfl]

/-- C5: for every reachable ledger state (normalized symbol text,
quantities on the scale-6 grid and positive, average costs on the scale-4
grid), decoding the encoded snapshot reproduces the ledger exactly. -/
theorem C5_round_trip (L : List EqRow)
    (hnorm : ∀ r ∈ L, stripUpper r.ticker = r.ticker ∧ stripUpper r.currency = r.currency)
    (hscale : ∀ r ∈ L, atScale 6 r.shares ∧ atScale 4 r.avg_cost ∧ 0 < r.shares) :
    loadHoldings (writeHoldings L) = L := by
  induction L with
  | nil => rfl
  | cons r rs ih =>
    have hrow : loadRow (writeRow r) = r := by
      obtain ⟨ht, hc⟩ := hnorm r (List.mem_cons_self r rs)
      obtain ⟨hs6, hs4, _⟩ := hscale r (List.mem_cons_self r rs)
      unfold loadRow writeRow
      rw [EqRow.mk.injEq]
      exact ⟨ht, cell_round_trip hs6, cell_round_trip hs4, hc⟩
    have ihr : loadHoldings (writeHoldings rs) = rs :=
      ih (fun x hx => hnorm x (List.mem_cons_of_mem r hx))
        (fun x hx => hscale x (List.mem_cons_of_mem r hx))
    unfold loadHoldings writeHoldings at ihr ⊢
    simp only [List.map_cons, hrow, ihr]

/-- C5 witness: the round trip at a one-row ledger holding 10.000000 of AAA
at cost 100.0000 in USD. -/
theorem C5_round_trip_witness :
    loadHoldings (writeHoldings [⟨"AAA", 10, 100, "USD"⟩]) = [⟨"AAA", 10, 100, "USD"⟩] :=
  C5_round_trip [⟨"AAA", 10, 100, "USD"⟩]
    (by intro r hr; simp only [List.mem_singleton] at hr; subst hr; exact ⟨rfl, rfl⟩)
    (by
      intro r hr
      simp only [List.mem_singleton] at hr
      subst hr
      exact ⟨⟨10000000, by norm_num⟩, ⟨1000000, by norm_num⟩, by norm_num⟩)

/-- C6 counterexample: a buy creating a new position from two fills with
inconsistent currencies (USD and CAD) is accepted: the batch succeeds and
records the first fill's currency, instead of failing with
CurrencyMismatch as the claim states. -/
theorem C6_counterexample :
    (("USD" : String) ≠ "CAD") ∧
    applyEquity [] [⟨"buy", "AAA", 2⟩]
        [⟨"buy", "AAA", 1, 100, "USD"⟩, ⟨"buy", "AAA", 1, 100, "CAD"⟩]
      = .ok [⟨"AAA", 2, 100, "USD"⟩] := by
  refine ⟨by decide, ?_⟩
  have hf : fillsFor [⟨"buy", "AAA", 1, 100, "USD"⟩, ⟨"buy", "AAA", 1, 100, "CAD"⟩]
      "buy" "AAA" = [⟨"buy", "AAA", 1, 100, "USD"⟩, ⟨"buy", "AAA", 1, 100, "CAD"⟩] := rfl
  have h1 : applyTradeE [⟨"buy", "AAA", 1, 100, "USD"⟩, ⟨"buy", "AAA", 1, 100, "CAD"⟩]
      [] ⟨"buy", "AAA", 2⟩ = .ok [⟨"AAA", 2, 100, "USD"⟩] := by
    norm_num [applyTradeE, hf, findRow, round_shares, round_price, quantize,
      Rat.floor_def']
  simp [applyEquity, applyTradesE, h1, sortByTicker, List.mergeSort_singleton]

/-- C6 amended: for a buy of positive quantity (a zero trade quantity
aborts earlier, at the Decimal division of the weighted-average fill
price): a buy into an existing position fails with CurrencyMismatch
exactly when some matching fill's currency differs from the position's;
a buy creating a new position performs no cross-fill consistency check
and records the first matching fill's currency. -/
theorem C6_currency_guard (fills : List Fill) (h : Ledger) (t : Trade)
    (f0 : Fill) (fs : List Fill)
    (hq : 0 < t.qty)
    (hact : t.action = "buy")
    (hfills : fillsFor fills t.action t.ticker = f0 :: fs)
    (hsum : ((f0 :: fs).map Fill.qty).sum = t.qty) :
    (∀ row, findRow h t.ticker = some row →
      (applyTradeE fills h t = .error (.currencyMismatch t.ticker) ↔
        ∃ f ∈ f0 :: fs, f.currency ≠ row.currency)) ∧
    (findRow h t.ticker = none →
      applyTradeE fills h t = .ok (h ++
        [{ ticker := t.ticker
           shares := round_shares t.qty
           avg_cost := round_price (((f0 :: fs).map (fun f => f.qty * f.fill_price)).sum / t.qty)
           currency := f0.currency }])) := by
  have hfills2 : fillsFor fills "buy" t.ticker = f0 :: fs := hact ▸ hfills
  have hsum2 : f0.qty + (fs.map Fill.qty).sum = t.qty := by simpa using hsum
  constructor
  · intro row hrow
    by_cases hex : ∃ f ∈ f0 :: fs, f.currency ≠ row.currency
    · rw [iff_true_right hex]
      simp only [applyTradeE]
      rw [hact, hfills2]
      rcases hex with ⟨f, hfmem, hfne⟩
      rcases List.mem_cons.mp hfmem with rfl | hmem
      · simp [hsum2, hrow, hfne]
      · simp [hsum2, hrow]
        intro _
        exact ⟨f, hmem, hfne⟩
    · rw [iff_false_right hex]
      push_neg at hex
      intro hres
      simp only [applyTradeE] at hres
      rw [hact, hfills2] at hres
      have hcur0 : f0.currency = row.currency := hex f0 (List.mem_cons_self f0 fs)
      have hcurs : ∀ x ∈ fs, x.currency = row.currency :=
        fun x hx => hex x (List.mem_cons_of_mem f0 hx)
      simp [hsum2, hrow, hcur0, hcurs] at hres
      obtain ⟨x, hx, hxne⟩ := hres
      exact hxne (hcurs x hx)
  · intro hnone
    simp only [applyTradeE]
    rw [hact, hfills2]
    simp [hsum2, hnone]

/-- C6 amended witness: an existing USD position rejects a CAD-priced buy
fill with CurrencyMismatch, and a fresh buy records the first fill's
currency. -/
theorem C6_currency_guard_witness :
    (applyTradeE [⟨"buy", "AAA", 5, 110, "CAD"⟩] [⟨"AAA", 10, 100, "USD"⟩]
        ⟨"buy", "AAA", 5⟩ = .error (.currencyMismatch "AAA")) ∧
    (applyTradeE [⟨"buy", "BBB", 5, 110, "CAD"⟩] [] ⟨"buy", "BBB", 5⟩
      = .ok
        [{ ticker := "BBB"
           shares := round_shares 5
           avg_cost := round_price ((([(⟨"buy", "BBB", 5, 110, "CAD"⟩ : Fill)]).map
             (fun f => f.qty * f.fill_price)).sum / 5)
           currency := "CAD" }]) := by
  obtain ⟨hsome, _⟩ := C6_currency_guard [⟨"buy", "AAA", 5, 110, "CAD"⟩]
    [⟨"AAA", 10, 100, "USD"⟩] ⟨"buy", "AAA", 5⟩ ⟨"buy", "AAA", 5, 110, "CAD"⟩ []
    (by decide) rfl rfl (by simp)
  obtain ⟨_, hnone⟩ := C6_currency_guard [⟨"buy", "BBB", 5, 110, "CAD"⟩]
    [] ⟨"buy", "BBB", 5⟩ ⟨"buy", "BBB", 5, 110, "CAD"⟩ []
    (by decide) rfl rfl (by simp)
  refine ⟨?_, ?_⟩
  · exact (hsome ⟨"AAA", 10, 100, "USD"⟩ rfl).mpr (by simp)
  · simpa using hnone rfl

/-- Any fill batch of the record_week engine containing a non-positive
quantity aborts with an error. -/
theorem applyEquityRW_mem_nonpos : ∀ (fills : List Fill) (h : Ledger) (f : Fill),
    f ∈ fills → f.qty ≤ 0 → ∃ e, applyEquityRW h fills = .error e
  | [], _, _, hmem, _ => absurd hmem (List.not_mem_nil _)
  | g :: gs, h, f, hmem, hq => by
    by_cases hg : g.qty ≤ 0
    · exact ⟨.nonPositiveQuantity g.ticker, by simp [applyEquityRW, applyFillRW, hg]⟩
    · have hfmem : f ∈ gs := by
        rcases List.mem_cons.mp hmem with rfl | hm
        · exact absurd hq hg
        · exact hm
      cases happ : applyFillRW h g with
      | error e => exact ⟨e, by simp [applyEquityRW, happ]⟩
      | ok h2 =>
        obtain ⟨e, he⟩ := applyEquityRW_mem_nonpos gs h2 f hfmem hq
        exact ⟨e, by simp [applyEquityRW, happ, he]⟩

/-- C7 amended: in the record_week engine a fill with zero or negative
quantity makes the batch abort with an error, and when it is the first
fill reached the error is NonPositiveQuantity; the apply_trades batch
engine performs no such check (see the counterexample). -/
theorem C7_nonpositive_rejected_rw (h : Ledger) (fills : List Fill) (f : Fill)
    (hmem : f ∈ fills) (hq : f.qty ≤ 0) :
    (∃ e, applyEquityRW h fills = .error e) ∧
    (∀ g gs, fills = g :: gs → g.qty ≤ 0 →
      applyEquityRW h fills = .error (.nonPositiveQuantity g.ticker)) := by
  refine ⟨applyEquityRW_mem_nonpos fills h f hmem hq, ?_⟩
  intro g gs hEq hg
  subst hEq
  simp [applyEquityRW, applyFillRW, hg]

/-- C7 amended witness: a zero-quantity sell fill is rejected by the
record_week engine with the non-positive-quantity error. -/
theorem C7_nonpositive_rejected_rw_witness :
    applyEquityRW [] [⟨"sell", "AAA", 0, 120, "USD"⟩]
      = .error (.nonPositiveQuantity "AAA") := by
  obtain ⟨_, hhead⟩ := C7_nonpositive_rejected_rw []
    [⟨"sell", "AAA", 0, 120, "USD"⟩] ⟨"sell", "AAA", 0, 120, "USD"⟩
    (by simp) (by decide)
  exact hhead ⟨"sell", "AAA", 0, 120, "USD"⟩ [] rfl (by decide)

/-- C7 counterexample: the apply_trades batch engine accepts a trade and
fill of negative quantity (-5): no NonPositiveQuantity is raised, the
batch commits, and the negative sell even increases the position from 10
to 15 shares. -/
theorem C7_counterexample :
    applyEquity [⟨"AAA", 10, 100, "USD"⟩] [⟨"sell", "AAA", -5⟩]
        [⟨"sell", "AAA", -5, 120, "USD"⟩]
      = .ok [⟨"AAA", 15, 100, "USD"⟩] := by
  have hf : fillsFor [⟨"sell", "AAA", -5, 120, "USD"⟩] "sell" "AAA"
      = [⟨"sell", "AAA", -5, 120, "USD"⟩] := rfl
  have h1 : applyTradeE [⟨"sell", "AAA", -5, 120, "USD"⟩] [⟨"AAA", 10, 100, "USD"⟩]
      ⟨"sell", "AAA", -5⟩ = .ok [⟨"AAA", 15, 100, "USD"⟩] := by
    norm_num [applyTradeE, hf, findRow, sellStep, updateRow, round_shares,
      quantize, Rat.floor_def']
    decide
  simp [applyEquity, applyTradesE, h1, sortByTicker, List.mergeSort_singleton]

/-- C8: the serialized snapshot of record_week's write_holdings lists the
rows sorted ascending by ticker and is identical for any two iteration
orders of the same row set (tickers unique). -/
theorem C8_snapshot_sorted_deterministic (rows1 rows2 : List EqRow)
    (hperm : rows1.Perm rows2)
    (hnd : (rows1.map EqRow.ticker).Nodup) :
    writeHoldingsRW rows1 = writeHoldingsRW rows2 ∧
    (writeHoldingsRW rows1).Pairwise (fun a b => strLe a.ticker b.ticker = true) := by
  constructor
  · unfold writeHoldingsRW
    rw [sortByTicker_eq_of_perm hperm hnd]
  · unfold writeHoldingsRW
    rw [List.pairwise_map]
    exact (sortByTicker_sorted rows1).imp (fun hab => hab)

/-- C8 witness: two insertion orders of the same two rows serialize to the
same snapshot, sorted ascending by ticker. -/
theorem C8_snapshot_sorted_witness :
    writeHoldingsRW [⟨"BBB", 1, 1, "USD"⟩, ⟨"AAA", 2, 2, "USD"⟩] =
      writeHoldingsRW [⟨"AAA", 2, 2, "USD"⟩, ⟨"BBB", 1, 1, "USD"⟩] ∧
    (writeHoldingsRW [⟨"BBB", 1, 1, "USD"⟩, ⟨"AAA", 2, 2, "USD"⟩]).Pairwise
      (fun a b => strLe a.ticker b.ticker = true) :=
  C8_snapshot_sorted_deterministic _ _ (List.Perm.swap _ _ _) (by decide)

/-- C9 counterexample: two buy sequences that are permutations of each
other, applied by the engine with its per-step quantization to the same
held position (1 unit at cost 0), end at different average costs
(0.0000 in one order, 0.0001 in the other). -/
theorem C9_counterexample :
    ([(⟨"buy", "AAA", 1, 5 / 100000, "CAD"⟩ : Fill), ⟨"buy", "AAA", 1, 13 / 100000, "CAD"⟩].Perm
      [⟨"buy", "AAA", 1, 13 / 100000, "CAD"⟩, ⟨"buy", "AAA", 1, 5 / 100000, "CAD"⟩]) ∧
    applyEquityRW [⟨"AAA", 1, 0, "CAD"⟩]
        [⟨"buy", "AAA", 1, 5 / 100000, "CAD"⟩, ⟨"buy", "AAA", 1, 13 / 100000, "CAD"⟩]
      = .ok [⟨"AAA", 3, 0, "CAD"⟩] ∧
    applyEquityRW [⟨"AAA", 1, 0, "CAD"⟩]
        [⟨"buy", "AAA", 1, 13 / 100000, "CAD"⟩, ⟨"buy", "AAA", 1, 5 / 100000, "CAD"⟩]
      = .ok [⟨"AAA", 3, 1 / 10000, "CAD"⟩] ∧
    (0 : ℚ) ≠ 1 / 10000 := by
  refine ⟨List.Perm.swap _ _ _, ?_, ?_, by norm_num⟩
  · have h1 : applyFillRW [⟨"AAA", 1, 0, "CAD"⟩] ⟨"buy", "AAA", 1, 5 / 100000, "CAD"⟩
        = .ok [⟨"AAA", 2, 0, "CAD"⟩] := by
      norm_num [applyFillRW, findRow, updateRow, round_shares, round_price,
        quantize, Rat.floor_def']
    have h2 : applyFillRW [⟨"AAA", 2, 0, "CAD"⟩] ⟨"buy", "AAA", 1, 13 / 100000, "CAD"⟩
        = .ok [⟨"AAA", 3, 0, "CAD"⟩] := by
      norm_num [applyFillRW, findRow, updateRow, round_shares, round_price,
        quantize, Rat.floor_def']
    simp only [applyEquityRW, h1, h2]
  · have h1 : applyFillRW [⟨"AAA", 1, 0, "CAD"⟩] ⟨"buy", "AAA", 1, 13 / 100000, "CAD"⟩
        = .ok [⟨"AAA", 2, 1 / 10000, "CAD"⟩] := by
      norm_num [applyFillRW, findRow, updateRow, round_shares, round_price,
        quantize, Rat.floor_def']
    have h2 : applyFillRW [⟨"AAA", 2, 1 / 10000, "CAD"⟩] ⟨"buy", "AAA", 1, 5 / 100000, "CAD"⟩
        = .ok [⟨"AAA", 3, 1 / 10000, "CAD"⟩] := by
      norm_num [applyFillRW, findRow, updateRow, round_shares, round_price,
        quantize, Rat.floor_def']
    simp only [applyEquityRW, h1, h2]

/-- C9 amended: with the quantize calls omitted (exact arithmetic), the
final state of a held position after a sequence of buys is the total
quantity and the total cost over total quantity, hence invariant under any
permutation of the buys; the per-step quantization of the code breaks this
invariance (see the counterexample). -/
theorem C9_exact_blend_invariant (q0 a0 : ℚ) (hq0 : 0 < q0)
    (l1 l2 : List (ℚ × ℚ)) (hperm : l1.Perm l2) (hpos : ∀ x ∈ l1, 0 < x.1) :
    l1.foldl blendExact (q0, a0) = l2.foldl blendExact (q0, a0) := by
  rw [foldl_blendExact l1 q0 a0 hq0 hpos,
      foldl_blendExact l2 q0 a0 hq0 (fun x hx => hpos x (hperm.mem_iff.mpr hx)),
      (hperm.map Prod.fst).sum_eq, (hperm.map (fun x => x.1 * x.2)).sum_eq]

/-- C9 amended witness: the two buy sequences of the counterexample, folded
without intermediate rounding, end at the same state. -/
theorem C9_exact_blend_invariant_witness :
    List.foldl blendExact ((1 : ℚ), (0 : ℚ))
        [((1 : ℚ), (5 / 100000 : ℚ)), (1, 13 / 100000)] =
      List.foldl blendExact (1, 0) [(1, 13 / 100000), (1, 5 / 100000)] :=
  C9_exact_blend_invariant 1 0 (by norm_num) _ _ (List.Perm.swap _ _ _)
    (by
      intro x hx
      simp only [List.mem_cons, List.not_mem_nil, or_false] at hx
      rcases hx with rfl | rfl <;> norm_num)

/-- C10: reconciliation does not consume fills: a batch with two identical
buy-5 trade intents against a single fill group totalling 5 applies the
ledger operation twice (position goes from 10 to 20 although only 5 shares
were filled), and a fill group matching no trade (sell ZZZ) is silently
ignored. -/
theorem C10_fills_not_consumed :
    applyEquity [⟨"AAA", 10, 100, "USD"⟩]
        [⟨"buy", "AAA", 5⟩, ⟨"buy", "AAA", 5⟩]
        [⟨"buy", "AAA", 5, 110, "USD"⟩]
      = .ok [⟨"AAA", 20, 105, "USD"⟩] ∧
    applyEquity [⟨"AAA", 10, 100, "USD"⟩]
        [⟨"buy", "AAA", 5⟩, ⟨"buy", "AAA", 5⟩]
        [⟨"buy", "AAA", 5, 110, "USD"⟩, ⟨"sell", "ZZZ", 3, 50, "USD"⟩]
      = .ok [⟨"AAA", 20, 105, "USD"⟩] := by
  constructor
  · have h1 : applyTradeE [⟨"buy", "AAA", 5, 110, "USD"⟩]
        [⟨"AAA", 10, 100, "USD"⟩] ⟨"buy", "AAA", 5⟩
        = .ok [⟨"AAA", 15, 1033333 / 10000, "USD"⟩] := by
      norm_num [applyTradeE, fillsFor, findRow, updateRow, round_shares, round_price,
        quantize, Rat.floor_def', List.filter]
    have h2 : applyTradeE [⟨"buy", "AAA", 5, 110, "USD"⟩]
        [⟨"AAA", 15, 1033333 / 10000, "USD"⟩] ⟨"buy", "AAA", 5⟩
        = .ok [⟨"AAA", 20, 105, "USD"⟩] := by
      norm_num [applyTradeE, fillsFor, findRow, updateRow, round_shares, round_price,
        quantize, Rat.floor_def', List.filter]
    simp [applyEquity, applyTradesE, h1, h2, sortByTicker, List.mergeSort_singleton]
  · have hf : fillsFor [⟨"buy", "AAA", 5, 110, "USD"⟩, ⟨"sell", "ZZZ", 3, 50, "USD"⟩]
        "buy" "AAA" = [⟨"buy", "AAA", 5, 110, "USD"⟩] := rfl
    have h1 : applyTradeE [⟨"buy", "AAA", 5, 110, "USD"⟩, ⟨"sell", "ZZZ", 3, 50, "USD"⟩]
        [⟨"AAA", 10, 100, "USD"⟩] ⟨"buy", "AAA", 5⟩
        = .ok [⟨"AAA", 15, 1033333 / 10000, "USD"⟩] := by
      norm_num [applyTradeE, hf, findRow, updateRow, round_shares, round_price,
        quantize, Rat.floor_def']
    have h2 : applyTradeE [⟨"buy", "AAA", 5, 110, "USD"⟩, ⟨"sell", "ZZZ", 3, 50, "USD"⟩]
        [⟨"AAA", 15, 1033333 / 10000, "USD"⟩] ⟨"buy", "AAA", 5⟩
        = .ok [⟨"AAA", 20, 105, "USD"⟩] := by
      norm_num [applyTradeE, hf, findRow, updateRow, round_shares, round_price,
        quantize, Rat.floor_def']
    simp [applyEquity, applyTradesE, h1, h2, sortByTicker, List.mergeSort_singleton]

end Stocks
